import Mathlib

/-!
Verification of the markdown segmentation routine
(`convert_markdown_to_notebook` in `convert_md_to_ipynb.py`, duplicated as
the anonymous scan loop in `temp.py`) and of the password assembly routine
(`generate_password` in the `09-password_generator` exercise scripts).

Strings are modelled as `List Char`; the Python string operations used by
the source (`str.strip`, `str.strip("\n")`, `str.startswith`,
`str.splitlines`, `"\n".join`) are embedded below over `List Char`.
-/

namespace Md

/-- Python `str.strip()` whitespace test, restricted to the ASCII
whitespace characters (space, tab, newline, carriage return, vertical tab,
form feed). -/
def isPySpace (c : Char) : Bool :=
  c = ' ' || c = '\t' || c = '\n' || c = '\r' || c = '\x0b' || c = '\x0c'

/-- Newline test, used by `str.strip("\n")`. -/
def isNl (c : Char) : Bool :=
  c = '\n'

/-- Drop trailing characters satisfying `p` (helper for the two strips). -/
def dropTrail (p : Char → Bool) (l : List Char) : List Char :=
  (l.reverse.dropWhile p).reverse

/-- Python `line.strip()`: remove leading and trailing whitespace. -/
def pyStrip (l : List Char) : List Char :=
  dropTrail isPySpace (l.dropWhile isPySpace)

/-- Python `s.strip("\n")`: remove leading and trailing newline characters
only. -/
def stripNl (l : List Char) : List Char :=
  dropTrail isNl (l.dropWhile isNl)

/-- Split a character list at each newline character; like Python
`s.split("\n")`, the result always has at least one (possibly empty)
piece. -/
def splitNl : List Char → List (List Char)
  | [] => [[]]
  | c :: rest =>
    if c = '\n' then [] :: splitNl rest
    else
      match splitNl rest with
      | [] => [[c]]
      | p :: ps => (c :: p) :: ps

/-- Python `str.splitlines` for newline-separated text: split at newlines
and drop the empty piece produced by a trailing newline, so that the empty
string yields no lines. -/
def pysplitlines (l : List Char) : List (List Char) :=
  if (splitNl l).getLast? = some [] then (splitNl l).dropLast else splitNl l

/-- Python `"\n".join(lines)`. -/
def joinNl : List (List Char) → List Char
  | [] => []
  | [p] => p
  | p :: q :: ps => p ++ '\n' :: joinNl (q :: ps)

/-- The opening fence tag tested by `line.strip().startswith("```python")`. -/
def fencePy : List Char :=
  ("```python").data

/-- The bare fence marker tested by `line.strip().startswith("```")`. -/
def fenceBare : List Char :=
  ("```").data

/-- The two cell kinds tracked by the scan's `cell_type` variable. -/
inductive CellType where
  | markdown
  | code
  deriving DecidableEq, Repr

/-- A produced notebook cell: its kind and its source content.  (The
execution count and outputs of a code cell are constant placeholders in the
source and carry no information.) -/
structure Cell where
  cell_type : CellType
  source : List Char
  deriving DecidableEq, Repr

/-- The mutable state of the scan loop: the accumulated `cells`, the
line buffer `current_lines`, and the current `cell_type`. -/
structure ScanState where
  cells : List Cell
  current_lines : List (List Char)
  cell_type : CellType
  deriving DecidableEq, Repr

/-- `flush_current_cell` of `convert_md_to_ipynb.py` (identical to `flush`
in `temp.py`): if the buffer is empty return unchanged, otherwise join the
buffered lines with newlines, strip outer newline characters, and append a
cell of the current kind; the buffer is cleared. -/
def flush (cells : List Cell) (current_lines : List (List Char))
    (cell_type : CellType) : List Cell :=
  if current_lines = [] then cells
  else cells ++ [⟨cell_type, stripNl (joinNl current_lines)⟩]

/-- One iteration of the `for line in markdown_text.splitlines()` loop:
a line whose stripped form starts with the opening fence tag flushes and
switches to code; otherwise a line whose stripped form starts with the bare
fence (and not the opening tag) flushes and switches to markdown; any other
line is appended to the buffer.  Neither fence branch tests the current
`cell_type`. -/
def step (st : ScanState) (line : List Char) : ScanState :=
  if fencePy.isPrefixOf (pyStrip line) then
    ⟨flush st.cells st.current_lines st.cell_type, [], CellType.code⟩
  else if fenceBare.isPrefixOf (pyStrip line)
      && !(fencePy.isPrefixOf (pyStrip line)) then
    ⟨flush st.cells st.current_lines st.cell_type, [], CellType.markdown⟩
  else
    ⟨st.cells, st.current_lines ++ [line], st.cell_type⟩

/-- The scan over a given list of lines, starting from empty buffers in
markdown mode, followed by the final flush. -/
def scanLines (lines : List (List Char)) : List Cell :=
  let final := lines.foldl step ⟨[], [], CellType.markdown⟩
  flush final.cells final.current_lines final.cell_type

/-- The segmentation core of `convert_markdown_to_notebook`: split the text
into lines and run the scan.  (File I/O and notebook serialization around
it are boundary collaborators and are not part of the segmentation.) -/
def convert_markdown_to_notebook (markdown_text : List Char) : List Cell :=
  scanLines (pysplitlines markdown_text)

/-- A line that can sit in the scan buffer: it carries no newline character
and its trimmed form does not start with the bare fence marker. -/
def goodLine (l : List Char) : Prop :=
  ('\n' ∉ l) ∧ fenceBare.isPrefixOf (pyStrip l) = false

/-- The invariant of every emitted cell content: it neither starts nor ends
with a newline character, and none of its lines has a trimmed form starting
with the bare fence marker. -/
def goodSrc (l : List Char) : Prop :=
  l.head? ≠ some '\n' ∧ l.getLast? ≠ some '\n' ∧
    ∀ q ∈ splitNl l, fenceBare.isPrefixOf (pyStrip q) = false

end Md

namespace Pw

/-- The set of possible outcomes of `random.sample(population, k)`:
sampling without replacement returns `k` elements drawn at pairwise
distinct positions of the population, in some order — exactly the lists
that are a permutation of some sublist of the population and have length
`k`. -/
def randomSampleOutcome (population : List String) (k : Nat)
    (result : List String) : Prop :=
  result.length = k ∧ result.Subperm population

/-- Python `str.capitalize()`: first character uppercased, the rest
lowercased (ASCII model). -/
def pyCapitalize (s : String) : String :=
  match s.data with
  | [] => ""
  | c :: rest => String.mk (c.toUpper :: rest.map Char.toLower)

/-- `generate_password` from `password_gen_argparse.py` (the starter and
argv variants are the same function with both flags absent, i.e. false).
The call to `random.sample(lst_words, k=num_words)` is modelled by the
`sampled` argument, constrained by `randomSampleOutcome`; the digits drawn
by `random.randint(0, 10)` under `add_digits` are modelled by the `digits`
argument. -/
def generate_password (sampled : List String) (separator : String)
    ( capitalize : Bool) (add_digits : Bool) (digits : List Nat) : String :=
  let result := if capitalize then sampled.map pyCapitalize else sampled
  let result2 :=
    if add_digits then
      (result.zip digits).map (fun p => p.1 ++ toString p.2)
    else result
  String.intercalate separator result2

end Pw

namespace Md

theorem splitNl_ne_nil (l : List Char) : splitNl l ≠ [] := by
  cases l with
  | nil => simp [splitNl]
  | cons c rest =>
    simp only [splitNl]
    by_cases h : c = '\n'
    · simp [h]
    · simp only [if_neg h]
      rcases hs : splitNl rest with _ | ⟨p, ps⟩ <;> simp

@[simp] theorem joinNl_nil : joinNl [] = [] := rfl

@[simp] theorem joinNl_single (p : List Char) : joinNl [p] = p := rfl

theorem joinNl_cons₂ (p q : List Char) (ps : List (List Char)) :
    joinNl (p :: q :: ps) = p ++ '\n' :: joinNl (q :: ps) := rfl

theorem joinNl_cons_of_ne (p : List Char) (ps : List (List Char))
    (h : ps ≠ []) : joinNl (p :: ps) = p ++ '\n' :: joinNl ps := by
  cases ps with
  | nil => exact absurd rfl h
  | cons q ps' => rfl

theorem join_splitNl (l : List Char) : joinNl (splitNl l) = l := by
  induction l with
  | nil => rfl
  | cons c rest ih =>
    simp only [splitNl]
    by_cases h : c = '\n'
    · subst h
      rw [if_pos rfl, joinNl_cons_of_ne _ _ (splitNl_ne_nil rest), ih]
      rfl
    · rw [if_neg h]
      rcases hs : splitNl rest with _ | ⟨p, ps⟩
      · exact absurd hs (splitNl_ne_nil rest)
      · have hrest : joinNl (p :: ps) = rest := by rw [← hs]; exact ih
        cases ps with
        | nil =>
          simp only [joinNl_single] at hrest
          simp [hrest]
        | cons q ps' =>
          rw [joinNl_cons₂] at hrest
          rw [joinNl_cons₂, ← hrest]
          rfl

theorem splitNl_no_nl (l : List Char) : ∀ p ∈ splitNl l, '\n' ∉ p := by
  induction l with
  | nil =>
    intro p hp
    simp only [splitNl, List.mem_singleton] at hp
    subst hp
    simp
  | cons c rest ih =>
    intro p hp
    simp only [splitNl] at hp
    by_cases h : c = '\n'
    · rw [if_pos h] at hp
      rcases List.mem_cons.mp hp with h1 | h1
      · subst h1; simp
      · exact ih p h1
    · rw [if_neg h] at hp
      rcases hs : splitNl rest with _ | ⟨q, qs⟩
      · exact absurd hs (splitNl_ne_nil rest)
      · rw [hs] at hp
        rcases List.mem_cons.mp hp with h1 | h1
        · subst h1
          intro hmem
          rcases List.mem_cons.mp hmem with h2 | h2
          · exact h h2.symm
          · exact ih q (by rw [hs]; exact List.mem_cons_self _ _) h2
        · exact ih p (by rw [hs]; exact List.mem_cons_of_mem _ h1)

theorem splitNl_nlfree (l : List Char) (h : '\n' ∉ l) : splitNl l = [l] := by
  induction l with
  | nil => rfl
  | cons c rest ih =>
    have hc : ¬ c = '\n' := fun e => h (e ▸ List.mem_cons_self c rest)
    have hr : '\n' ∉ rest := fun e => h (List.mem_cons_of_mem c e)
    simp only [splitNl, if_neg hc, ih hr]

theorem splitNl_append_nl (a t : List Char) :
    splitNl (a ++ '\n' :: t) = splitNl a ++ splitNl t := by
  induction a with
  | nil => simp [splitNl]
  | cons c a' ih =>
    by_cases h : c = '\n'
    · simp only [List.cons_append, splitNl, if_pos h, List.append_eq, ih]
    · simp only [List.cons_append, splitNl, if_neg h, List.append_eq, ih]
      rcases hs : splitNl a' with _ | ⟨q, qs⟩
      · exact absurd hs (splitNl_ne_nil a')
      · simp [hs, List.cons_append]

theorem splitNl_joinNl (pieces : List (List Char)) (h1 : pieces ≠ [])
    (h2 : ∀ p ∈ pieces, '\n' ∉ p) : splitNl (joinNl pieces) = pieces := by
  induction pieces with
  | nil => exact absurd rfl h1
  | cons p ps ih =>
    cases ps with
    | nil => simp [splitNl_nlfree p (h2 p (List.mem_cons_self _ _))]
    | cons q ps' =>
      rw [joinNl_cons₂, splitNl_append_nl,
        splitNl_nlfree p (h2 p (List.mem_cons_self _ _)),
        ih (List.cons_ne_nil _ _)
          (fun r hr => h2 r (List.mem_cons_of_mem _ hr))]
      rfl

theorem splitNl_joinNl_pred (P : List Char → Prop) (pieces : List (List Char))
    (hnl : ∀ p ∈ pieces, '\n' ∉ p) (hP0 : P [])
    (hP : ∀ p ∈ pieces, P p) : ∀ q ∈ splitNl (joinNl pieces), P q := by
  cases pieces with
  | nil =>
    intro q hq
    simp only [joinNl_nil, splitNl, List.mem_singleton] at hq
    subst hq
    exact hP0
  | cons p ps =>
    rw [splitNl_joinNl _ (List.cons_ne_nil _ _) hnl]
    exact hP

theorem splitNl_dropWhileNl_pred (P : List Char → Prop) (l : List Char)
    (h : ∀ q ∈ splitNl l, P q) : ∀ q ∈ splitNl (l.dropWhile isNl), P q := by
  induction l with
  | nil => simpa using h
  | cons c rest ih =>
    by_cases hc : c = '\n'
    · have h' : ∀ q ∈ splitNl rest, P q := by
        intro q hq
        apply h
        simp only [splitNl, if_pos hc]
        exact List.mem_cons_of_mem _ hq
      rw [List.dropWhile_cons]
      simp only [isNl, hc, decide_True]
      simpa using ih h'
    · rw [List.dropWhile_cons]
      simp only [isNl]
      simp only [hc, decide_False, decide_eq_true_eq, if_neg hc]
      exact h

theorem dropTrail_decomp (p : Char → Bool) (l : List Char) :
    ∃ r, l = dropTrail p l ++ r ∧ ∀ c ∈ r, p c = true := by
  refine ⟨(l.reverse.takeWhile p).reverse, ?_, ?_⟩
  · conv_lhs => rw [← l.reverse_reverse,
      ← List.takeWhile_append_dropWhile p l.reverse]
    rw [List.reverse_append]
    rfl
  · intro c hc
    exact List.mem_takeWhile_imp (List.mem_reverse.mp hc)

theorem splitNl_dropTrailNl_pred (P : List Char → Prop) (l : List Char)
    (h : ∀ q ∈ splitNl l, P q) : ∀ q ∈ splitNl (dropTrail isNl l), P q := by
  obtain ⟨r, hl, hr⟩ := dropTrail_decomp isNl l
  cases r with
  | nil =>
    rw [List.append_nil] at hl
    rw [← hl]
    exact h
  | cons c r' =>
    have hc : c = '\n' := by
      have := hr c (List.mem_cons_self _ _)
      simpa [isNl] using this
    subst hc
    intro q hq
    apply h
    rw [hl, splitNl_append_nl]
    exact List.mem_append_left _ hq

theorem head?_stripNl_ne_nl (l : List Char) :
    (stripNl l).head? ≠ some '\n' := by
  intro hcontra
  have hmatch := List.head?_dropWhile_not isNl l
  obtain ⟨r, hdec, _⟩ := dropTrail_decomp isNl (l.dropWhile isNl)
  have hstrip : stripNl l = dropTrail isNl (l.dropWhile isNl) := rfl
  rcases hsl : dropTrail isNl (l.dropWhile isNl) with _ | ⟨x, xs⟩
  · rw [hstrip, hsl] at hcontra
    simp at hcontra
  · have hx : (l.dropWhile isNl).head? = some x := by
      rw [hdec, hsl]
      rfl
    rw [hstrip, hsl] at hcontra
    simp only [List.head?_cons, Option.some.injEq] at hcontra
    rw [hx] at hmatch
    simp only [hcontra] at hmatch
    simp [isNl] at hmatch

theorem getLast?_stripNl_ne_nl (l : List Char) :
    (stripNl l).getLast? ≠ some '\n' := by
  intro hcontra
  have hmatch := List.head?_dropWhile_not isNl (l.dropWhile isNl).reverse
  have heq : (stripNl l).getLast? =
      ((l.dropWhile isNl).reverse.dropWhile isNl).head? := by
    simp [stripNl, dropTrail]
  rw [heq] at hcontra
  rw [hcontra] at hmatch
  simp [isNl] at hmatch

theorem dropWhile_eq_self_of_not (p : Char → Bool) (l : List Char)
    (h : ∀ x ∈ l, p x = false) : l.dropWhile p = l := by
  cases l with
  | nil => rfl
  | cons c t =>
    rw [List.dropWhile_cons, h c (List.mem_cons_self _ _)]
    simp

theorem stripNl_of_not_mem (m : List Char) (h : '\n' ∉ m) : stripNl m = m := by
  have hall : ∀ x ∈ m, isNl x = false := by
    intro x hx
    have : ¬ x = '\n' := fun e => h (e ▸ hx)
    simpa [isNl] using this
  have h1 : m.dropWhile isNl = m := dropWhile_eq_self_of_not _ _ hall
  have h2 : m.reverse.dropWhile isNl = m.reverse :=
    dropWhile_eq_self_of_not _ _ (fun x hx => hall x (List.mem_reverse.mp hx))
  simp [stripNl, dropTrail, h1, h2]

theorem stripNl_append_nl (x : List Char) : stripNl (x ++ ['\n']) = stripNl x := by
  unfold stripNl
  rw [List.dropWhile_append]
  by_cases he : (x.dropWhile isNl).isEmpty
  · rw [if_pos he]
    have hxe : x.dropWhile isNl = [] := by
      simpa [List.isEmpty_iff] using he
    rw [hxe]
    simp [isNl, dropTrail]
  · rw [if_neg he]
    unfold dropTrail
    rw [List.reverse_append]
    simp [isNl]

theorem joinNl_concat (ys : List (List Char)) (z : List Char) (h : ys ≠ []) :
    joinNl (ys ++ [z]) = joinNl ys ++ '\n' :: z := by
  induction ys with
  | nil => exact absurd rfl h
  | cons y ys' ih =>
    cases ys' with
    | nil => rfl
    | cons w ws =>
      have h2 : (y :: w :: ws) ++ [z] = y :: w :: (ws ++ [z]) := by simp
      rw [h2, joinNl_cons₂, joinNl_cons₂]
      have h3 : joinNl (w :: (ws ++ [z])) = joinNl (w :: ws) ++ '\n' :: z := by
        have := ih (List.cons_ne_nil _ _)
        simpa [List.cons_append] using this
      rw [h3]
      simp

theorem stripNl_joinNl_pysplitlines (s : List Char) :
    stripNl (joinNl (pysplitlines s)) = stripNl s := by
  unfold pysplitlines
  by_cases h : (splitNl s).getLast? = some []
  · rw [if_pos h]
    have hdec : (splitNl s).dropLast ++ [([] : List Char)] = splitNl s :=
      List.dropLast_append_getLast? [] (Option.mem_def.mpr h)
    rcases hps : (splitNl s).dropLast with _ | ⟨p, ps⟩
    · have hs : splitNl s = [[]] := by rw [← hdec, hps]; rfl
      have hnil : s = [] := by rw [← join_splitNl s, hs]; rfl
      subst hnil
      rfl
    · have hjoin : s = joinNl ((p :: ps) ++ [([] : List Char)]) := by
        rw [← join_splitNl s, ← hdec, hps]
      rw [hjoin, joinNl_concat _ _ (List.cons_ne_nil _ _)]
      have : joinNl (p :: ps) ++ '\n' :: ([] : List Char) =
          joinNl (p :: ps) ++ ['\n'] := rfl
      rw [this, stripNl_append_nl]
  · rw [if_neg h, join_splitNl]

theorem pysplitlines_eq_nil_iff (s : List Char) :
    pysplitlines s = [] ↔ s = [] := by
  constructor
  · intro h
    unfold pysplitlines at h
    by_cases hg : (splitNl s).getLast? = some []
    · rw [if_pos hg] at h
      have hdec : (splitNl s).dropLast ++ [([] : List Char)] = splitNl s :=
        List.dropLast_append_getLast? [] (Option.mem_def.mpr hg)
      rw [h] at hdec
      rw [← join_splitNl s, ← hdec]
      rfl
    · rw [if_neg hg] at h
      exact absurd h (splitNl_ne_nil s)
  · intro h
    subst h
    rfl

theorem mem_splitNl_of_mem_pysplitlines (s q : List Char)
    (h : q ∈ pysplitlines s) : q ∈ splitNl s := by
  unfold pysplitlines at h
  split at h
  · exact (List.dropLast_sublist _).subset h
  · exact h

theorem isPrefixOf_of_append_isPrefixOf (a b x : List Char)
    (h : (a ++ b).isPrefixOf x = true) : a.isPrefixOf x = true := by
  induction a generalizing x with
  | nil => cases x <;> rfl
  | cons c a' ih =>
    cases x with
    | nil => simp [List.isPrefixOf] at h
    | cons d x' =>
      simp only [List.cons_append, List.isPrefixOf, Bool.and_eq_true] at h ⊢
      exact ⟨h.1, ih x' h.2⟩

theorem fenceBare_of_fencePy (x : List Char)
    (h : fencePy.isPrefixOf x = true) : fenceBare.isPrefixOf x = true := by
  apply isPrefixOf_of_append_isPrefixOf fenceBare (("python").data)
  have e : fenceBare ++ ("python").data = fencePy := by decide
  rw [e]
  exact h

theorem step_nonfence (st : ScanState) (line : List Char)
    (h : fenceBare.isPrefixOf (pyStrip line) = false) :
    step st line = ⟨st.cells, st.current_lines ++ [line], st.cell_type⟩ := by
  have h2 : fencePy.isPrefixOf (pyStrip line) = false := by
    cases hp : fencePy.isPrefixOf (pyStrip line)
    · rfl
    · exact absurd (fenceBare_of_fencePy _ hp) (by simp [h])
  simp [step, h, h2]

theorem foldl_nonfence (ls : List (List Char)) (st : ScanState)
    (h : ∀ l ∈ ls, fenceBare.isPrefixOf (pyStrip l) = false) :
    ls.foldl step st = ⟨st.cells, st.current_lines ++ ls, st.cell_type⟩ := by
  induction ls generalizing st with
  | nil => simp
  | cons l ls' ih =>
    rw [List.foldl_cons, step_nonfence st l (h l (List.mem_cons_self _ _)),
      ih _ (fun x hx => h x (List.mem_cons_of_mem _ hx))]
    simp

theorem flush_good (cells : List Cell) (cur : List (List Char)) (k : CellType)
    (hcur : ∀ p ∈ cur, goodLine p)
    (hcells : ∀ cl ∈ cells, goodSrc cl.source) :
    ∀ cl ∈ flush cells cur k, goodSrc cl.source := by
  intro cl hcl
  unfold flush at hcl
  by_cases hc : cur = []
  · rw [if_pos hc] at hcl
    exact hcells cl hcl
  · rw [if_neg hc] at hcl
    rcases List.mem_append.mp hcl with hmem | hmem
    · exact hcells cl hmem
    · have hceq : cl = ⟨k, stripNl (joinNl cur)⟩ := by simpa using hmem
      subst hceq
      refine ⟨head?_stripNl_ne_nl _, getLast?_stripNl_ne_nl _, ?_⟩
      have base : ∀ q ∈ splitNl (joinNl cur),
          fenceBare.isPrefixOf (pyStrip q) = false :=
        splitNl_joinNl_pred _ cur (fun p hp => (hcur p hp).1) (by decide)
          (fun p hp => (hcur p hp).2)
      have lead := splitNl_dropWhileNl_pred _ _ base
      have trail := splitNl_dropTrailNl_pred _ _ lead
      exact trail

theorem step_good (st : ScanState) (line : List Char) (hnl : '\n' ∉ line)
    (hst : (∀ cl ∈ st.cells, goodSrc cl.source) ∧
      ∀ p ∈ st.current_lines, goodLine p) :
    (∀ cl ∈ (step st line).cells, goodSrc cl.source) ∧
      ∀ p ∈ (step st line).current_lines, goodLine p := by
  by_cases h1 : fencePy.isPrefixOf (pyStrip line) = true
  · simp only [step, h1, if_true]
    exact ⟨flush_good _ _ _ hst.2 hst.1, by simp⟩
  · have h1f : fencePy.isPrefixOf (pyStrip line) = false := by
      cases hp : fencePy.isPrefixOf (pyStrip line)
      · rfl
      · exact absurd hp h1
    by_cases h2 : fenceBare.isPrefixOf (pyStrip line) = true
    · simp only [step, h1f, h2, Bool.false_eq_true, if_false, Bool.not_false,
        Bool.and_true, if_true]
      exact ⟨flush_good _ _ _ hst.2 hst.1, by simp⟩
    · have h2f : fenceBare.isPrefixOf (pyStrip line) = false := by
        cases hp : fenceBare.isPrefixOf (pyStrip line)
        · rfl
        · exact absurd hp h2
      rw [step_nonfence st line h2f]
      refine ⟨hst.1, ?_⟩
      intro p hp
      rcases List.mem_append.mp hp with hmem | hmem
      · exact hst.2 p hmem
      · have : p = line := by simpa using hmem
        subst this
        exact ⟨hnl, h2f⟩

theorem foldl_good (ls : List (List Char)) (st : ScanState)
    (hnl : ∀ l ∈ ls, '\n' ∉ l)
    (hst : (∀ cl ∈ st.cells, goodSrc cl.source) ∧
      ∀ p ∈ st.current_lines, goodLine p) :
    (∀ cl ∈ (ls.foldl step st).cells, goodSrc cl.source) ∧
      ∀ p ∈ (ls.foldl step st).current_lines, goodLine p := by
  induction ls generalizing st with
  | nil => simpa using hst
  | cons l ls' ih =>
    rw [List.foldl_cons]
    exact ih _ (fun x hx => hnl x (List.mem_cons_of_mem _ hx))
      (step_good st l (hnl l (List.mem_cons_self _ _)) hst)

theorem flush_of_ne_nil (cells : List Cell) (cur : List (List Char))
    (k : CellType) (h : cur ≠ []) :
    flush cells cur k = cells ++ [⟨k, stripNl (joinNl cur)⟩] := by
  unfold flush
  rw [if_neg h]

theorem cells_good (s : List Char) :
    ∀ cl ∈ convert_markdown_to_notebook s, goodSrc cl.source := by
  unfold convert_markdown_to_notebook scanLines
  have hlines : ∀ l ∈ pysplitlines s, '\n' ∉ l := fun l hl =>
    splitNl_no_nl s l (mem_splitNl_of_mem_pysplitlines s l hl)
  have hinv := foldl_good (pysplitlines s) ⟨[], [], CellType.markdown⟩ hlines
    ⟨by simp, by simp⟩
  exact flush_good _ _ _ hinv.2 hinv.1

/-- C1 counterexample: a non-empty buffer whose joined lines strip to the
empty string does emit a segment with empty content; on the input
consisting of a single newline, the output contains a Prose segment whose
content is the empty string. -/
theorem C1_empty_segment_emitted :
    flush [] [[]] CellType.markdown = [⟨CellType.markdown, []⟩] ∧
    convert_markdown_to_notebook (("\n").data) =
      [⟨CellType.markdown, []⟩] := by
  decide

/-- C1 amended: flush is a no-op exactly when the buffer holds zero lines;
a non-empty buffer always emits a segment, even when its stripped content
is the empty string. -/
theorem C1_flush_noop_iff_buffer_empty (cells : List Cell)
    (cur : List (List Char)) (k : CellType) :
    flush cells cur k = cells ↔ cur = [] := by
  unfold flush
  by_cases h : cur = [] <;> simp [h]

/-- C2 counterexample: with current kind Code, a line whose trimmed form
starts with the opening fence tag is not absorbed as content — it flushes
the buffer as a Code segment and is discarded, and on the full input
"```python\na\n```python\nb\n```" the output is two Code segments. -/
theorem C2_open_fence_not_absorbed :
    step ⟨[], [("a").data], CellType.code⟩ (("```python").data) =
      ⟨[⟨CellType.code, ("a").data⟩], [], CellType.code⟩ ∧
    step ⟨[], [("a").data], CellType.code⟩ (("```python").data) ≠
      ⟨[], [("a").data, ("```python").data], CellType.code⟩ ∧
    convert_markdown_to_notebook
        (("```python\na\n```python\nb\n```").data) =
      [⟨CellType.code, ("a").data⟩, ⟨CellType.code, ("b").data⟩] := by
  decide

/-- C2 amended: a line whose trimmed form starts with the opening fence
tag triggers a fence-open event regardless of the current kind; in
particular, while already in Code it flushes the pending buffer as a Code
segment, discards the line, and the kind stays Code. -/
theorem C2_open_fence_in_code (cells : List Cell) (cur : List (List Char))
    (line : List Char) (h : fencePy.isPrefixOf (pyStrip line) = true) :
    step ⟨cells, cur, CellType.code⟩ line =
      ⟨cells ++ (if cur = [] then []
                 else [⟨CellType.code, stripNl (joinNl cur)⟩]),
       [], CellType.code⟩ := by
  by_cases hc : cur = [] <;> simp [step, flush, h, hc]

/-- Witness for C2 amended at a concrete buffer and line. -/
theorem C2_open_fence_in_code_witness :
    fencePy.isPrefixOf (pyStrip (("```python").data)) = true ∧
    step ⟨[], [("a").data], CellType.code⟩ (("```python").data) =
      ⟨[] ++ (if [("a").data] = ([] : List (List Char)) then []
              else [⟨CellType.code, stripNl (joinNl [("a").data])⟩]),
       [], CellType.code⟩ :=
  ⟨by decide,
   C2_open_fence_in_code [] [("a").data] (("```python").data) (by decide)⟩

/-- C3 counterexample: with current kind Prose, a bare fence line is not
appended to the buffer — it flushes the buffer as a Prose segment and is
discarded, and on the full input "a\n```\nb" the output is two Prose
segments. -/
theorem C3_bare_fence_not_buffered :
    step ⟨[], [("a").data], CellType.markdown⟩ (("```").data) =
      ⟨[⟨CellType.markdown, ("a").data⟩], [], CellType.markdown⟩ ∧
    step ⟨[], [("a").data], CellType.markdown⟩ (("```").data) ≠
      ⟨[], [("a").data, ("```").data], CellType.markdown⟩ ∧
    convert_markdown_to_notebook (("a\n```\nb").data) =
      [⟨CellType.markdown, ("a").data⟩,
       ⟨CellType.markdown, ("b").data⟩] := by
  decide

/-- C3 amended: a line whose trimmed form starts with the bare fence
marker (and not the opening tag) triggers a fence-close event regardless
of the current kind; in particular, while in Prose it flushes the pending
buffer as a Prose segment, discards the line, and the kind stays Prose. -/
theorem C3_bare_fence_in_prose (cells : List Cell) (cur : List (List Char))
    (line : List Char) (h : fenceBare.isPrefixOf (pyStrip line) = true)
    (h2 : fencePy.isPrefixOf (pyStrip line) = false) :
    step ⟨cells, cur, CellType.markdown⟩ line =
      ⟨cells ++ (if cur = [] then []
                 else [⟨CellType.markdown, stripNl (joinNl cur)⟩]),
       [], CellType.markdown⟩ := by
  by_cases hc : cur = [] <;> simp [step, flush, h, h2, hc]

/-- Witness for C3 amended at a concrete buffer and line. -/
theorem C3_bare_fence_in_prose_witness :
    (fenceBare.isPrefixOf (pyStrip (("```").data)) = true ∧
     fencePy.isPrefixOf (pyStrip (("```").data)) = false) ∧
    step ⟨[], [("a").data], CellType.markdown⟩ (("```").data) =
      ⟨[] ++ (if [("a").data] = ([] : List (List Char)) then []
              else [⟨CellType.markdown, stripNl (joinNl [("a").data])⟩]),
       [], CellType.markdown⟩ :=
  ⟨⟨by decide, by decide⟩,
   C3_bare_fence_in_prose [] [("a").data] (("```").data)
     (by decide) (by decide)⟩

/-- C4 counterexample: the all-whitespace input " " does not yield the
empty sequence — it yields one Prose segment whose content is " ". -/
theorem C4_whitespace_not_empty_sequence :
    convert_markdown_to_notebook ((" ").data) =
      [⟨CellType.markdown, (" ").data⟩] ∧
    convert_markdown_to_notebook ((" ").data) ≠ [] := by
  decide

/-- C5 counterexample: the input "```python" contains an opening fence
with no matching closing fence, yet segmentation yields no segment at all
— in particular no final Code segment. -/
theorem C5_unterminated_no_final_segment :
    fencePy.isPrefixOf (pyStrip (("```python").data)) = true ∧
    convert_markdown_to_notebook (("```python").data) = [] := by
  decide

/-- C4 amended: on input with no fence-marker line, segmentation returns
the empty sequence exactly for the empty input, and otherwise exactly one
Prose segment whose content is the input with leading and trailing newline
characters stripped (so whitespace-only input that is not empty yields one
Prose segment, possibly with empty content, rather than no segment). -/
theorem C4_no_fence_segmentation (s : List Char)
    (h : ∀ l ∈ pysplitlines s, fenceBare.isPrefixOf (pyStrip l) = false) :
    convert_markdown_to_notebook s =
      if s = [] then [] else [⟨CellType.markdown, stripNl s⟩] := by
  unfold convert_markdown_to_notebook scanLines
  rw [foldl_nonfence _ _ h]
  by_cases hs : s = []
  · subst hs
    rfl
  · rw [if_neg hs]
    have hne : pysplitlines s ≠ [] := fun hcon =>
      hs ((pysplitlines_eq_nil_iff s).mp hcon)
    show flush [] (([] : List (List Char)) ++ pysplitlines s)
        CellType.markdown = _
    rw [List.nil_append, flush_of_ne_nil _ _ _ hne,
      stripNl_joinNl_pysplitlines]
    rfl

/-- Witness for C4 amended on the fence-free input "hi\nthere". -/
theorem C4_no_fence_segmentation_witness :
    convert_markdown_to_notebook (("hi\nthere").data) =
      if ("hi\nthere").data = ([] : List Char) then []
      else [⟨CellType.markdown, stripNl (("hi\nthere").data)⟩] :=
  C4_no_fence_segmentation (("hi\nthere").data) (by decide)

/-- C5 amended: if the line sequence of the input contains an opening
fence line followed by at least one further line, none of which is a fence
line of either kind, then the output ends with a Code segment whose
content is those trailing lines joined and newline-stripped.  (When no
line at all follows the opening fence, the final flush sees an empty
buffer and no Code segment is emitted.) -/
theorem C5_unterminated_final_code :
    (∀ (s : List Char) (pre post : List (List Char)) (o : List Char),
        pysplitlines s = pre ++ o :: post →
        fencePy.isPrefixOf (pyStrip o) = true →
        post ≠ [] →
        (∀ l ∈ post, fenceBare.isPrefixOf (pyStrip l) = false) →
        ∃ init, convert_markdown_to_notebook s =
          init ++ [⟨CellType.code, stripNl (joinNl post)⟩]) ∧
    convert_markdown_to_notebook (("```python\na=1\n").data) =
      [⟨CellType.code, ("a=1").data⟩] := by
  constructor
  · intro s pre post o hsplit ho hpost hnf
    unfold convert_markdown_to_notebook scanLines
    rw [hsplit, List.foldl_append, List.foldl_cons]
    rcases hpre : List.foldl step ⟨[], [], CellType.markdown⟩ pre
      with ⟨cs, cur, k⟩
    have hstep : step ⟨cs, cur, k⟩ o =
        ⟨flush cs cur k, [], CellType.code⟩ := by
      simp [step, ho]
    rw [hstep, foldl_nonfence _ _ hnf]
    refine ⟨flush cs cur k, ?_⟩
    show flush (flush cs cur k) (([] : List (List Char)) ++ post)
        CellType.code = _
    rw [List.nil_append, flush_of_ne_nil _ _ _ hpost]
  · decide

/-- Witness for C5 amended on the spec's own example "```python\na=1\n",
whose post-fence lines are exactly ["a=1"]. -/
theorem C5_unterminated_final_code_witness :
    ∃ init, convert_markdown_to_notebook (("```python\na=1\n").data) =
      init ++ [⟨CellType.code, stripNl (joinNl [("a=1").data])⟩] :=
  C5_unterminated_final_code.1 (("```python\na=1\n").data) [] [("a=1").data]
    (("```python").data) (by decide) (by decide) (by decide) (by decide)

/-- C6: on the round-trip example — lines "Intro text", blank,
"```python", "x = 1", "```", blank, "More text" — segmentation returns
exactly Prose "Intro text", Code "x = 1", Prose "More text", in order. -/
theorem C6_roundtrip_example :
    convert_markdown_to_notebook
        (("Intro text\n\n```python\nx = 1\n```\n\nMore text").data) =
      [⟨CellType.markdown, ("Intro text").data⟩,
       ⟨CellType.code, ("x = 1").data⟩,
       ⟨CellType.markdown, ("More text").data⟩] := by
  decide

/-- C7: an input of exactly three lines — an opening fence line, a content
line that is not a fence line, and a closing fence line — segments to a
single Code segment whose content is the content line. -/
theorem C7_single_fenced_block (s o m c : List Char)
    (hsplit : pysplitlines s = [o, m, c])
    (ho : fencePy.isPrefixOf (pyStrip o) = true)
    (hm : fenceBare.isPrefixOf (pyStrip m) = false)
    (hc1 : fenceBare.isPrefixOf (pyStrip c) = true)
    (hc2 : fencePy.isPrefixOf (pyStrip c) = false) :
    convert_markdown_to_notebook s = [⟨CellType.code, m⟩] := by
  have hmnl : '\n' ∉ m := splitNl_no_nl s m
    (mem_splitNl_of_mem_pysplitlines s m (by rw [hsplit]; simp))
  unfold convert_markdown_to_notebook scanLines
  rw [hsplit]
  simp only [List.foldl_cons, List.foldl_nil]
  have h1 : step ⟨[], [], CellType.markdown⟩ o = ⟨[], [], CellType.code⟩ := by
    simp [step, ho, flush]
  rw [h1, step_nonfence _ _ hm]
  have h3 : step ⟨[], ([] : List (List Char)) ++ [m], CellType.code⟩ c =
      ⟨flush [] ([] ++ [m]) CellType.code, [], CellType.markdown⟩ := by
    simp [step, hc1, hc2]
  rw [h3]
  show flush (flush [] ([] ++ [m]) CellType.code) [] CellType.markdown = _
  rw [flush_of_ne_nil [] (([] : List (List Char)) ++ [m]) CellType.code
    (by simp)]
  show flush ([] ++ [⟨CellType.code, stripNl (joinNl ([] ++ [m]))⟩]) []
      CellType.markdown = _
  rw [List.nil_append, List.nil_append]
  have hflush : flush [⟨CellType.code, stripNl (joinNl [m])⟩] []
      CellType.markdown = [⟨CellType.code, stripNl (joinNl [m])⟩] := rfl
  rw [hflush, joinNl_single, stripNl_of_not_mem m hmnl]

/-- Witness for C7 on the input "```python\nx\n```". -/
theorem C7_single_fenced_block_witness :
    convert_markdown_to_notebook (("```python\nx\n```").data) =
      [⟨CellType.code, ("x").data⟩] :=
  C7_single_fenced_block (("```python\nx\n```").data) (("```python").data)
    (("x").data) (("```").data) (by decide) (by decide) (by decide)
    (by decide) (by decide)

/-- C8: no line of any emitted segment's content has a whitespace-trimmed
form starting with the fence marker: every such line was consumed by a
fence branch of the scan and never buffered. -/
theorem C8_no_fence_line_in_output (s : List Char) (cl : Cell)
    (hcl : cl ∈ convert_markdown_to_notebook s) :
    ∀ q ∈ splitNl cl.source, fenceBare.isPrefixOf (pyStrip q) = false :=
  (cells_good s cl hcl).2.2

/-- Witness for C8: the sole line of the sole segment of input "x". -/
theorem C8_no_fence_line_in_output_witness :
    fenceBare.isPrefixOf (pyStrip (("x").data)) = false :=
  C8_no_fence_line_in_output (("x").data)
    ⟨CellType.markdown, ("x").data⟩ (by decide) (("x").data) (by decide)

/-- C9: every emitted segment's content neither starts nor ends with a
newline character, since every flush strips outer newlines from the joined
buffer. -/
theorem C9_no_outer_newlines (s : List Char) (cl : Cell)
    (hcl : cl ∈ convert_markdown_to_notebook s) :
    cl.source.head? ≠ some '\n' ∧ cl.source.getLast? ≠ some '\n' :=
  ⟨(cells_good s cl hcl).1, (cells_good s cl hcl).2.1⟩

/-- Witness for C9: the segment produced by the input "y\nz". -/
theorem C9_no_outer_newlines_witness :
    (⟨CellType.markdown, ("y\nz").data⟩ : Cell).source.head? ≠ some '\n' ∧
    (⟨CellType.markdown, ("y\nz").data⟩ : Cell).source.getLast? ≠
      some '\n' :=
  C9_no_outer_newlines (("y\nz").data) ⟨CellType.markdown, ("y\nz").data⟩
    (by decide)

end Md

namespace Pw

/-- C10: for a word list of pairwise-distinct words and any number of
words at most the list's length, every outcome of `generate_password` with
the default transformation flags is the separator-join of exactly that
many pairwise-distinct words, each drawn from the word list. -/
theorem C10_generate_password_distinct_words (lst : List String) (k : Nat)
    (sep : String) (sampled : List String) (hnd : lst.Nodup)
    (hk : k ≤ lst.length) (hout : randomSampleOutcome lst k sampled) :
    ∃ ws : List String,
      generate_password sampled sep false false [] =
          String.intercalate sep ws ∧
        ws.length = k ∧ ws.Nodup ∧ ∀ w ∈ ws, w ∈ lst := by
  obtain ⟨hlen, hsub⟩ := hout
  refine ⟨sampled, rfl, hlen, ?_, ?_⟩
  · obtain ⟨l, hperm, hsl⟩ := hsub
    exact hperm.nodup_iff.mp (List.Nodup.sublist hsl hnd)
  · intro w hw
    exact hsub.subset hw

/-- Witness for C10 on the word list ["alpha", "beta", "gamma"] with the
sampling outcome ["beta", "alpha"]. -/
theorem C10_generate_password_distinct_words_witness :
    ∃ ws : List String,
      generate_password [("beta" : String), "alpha"] (" ") false false [] =
          String.intercalate (" ") ws ∧
        ws.length = 2 ∧ ws.Nodup ∧
        ∀ w ∈ ws, w ∈ [("alpha" : String), "beta", "gamma"] :=
  C10_generate_password_distinct_words
    [("alpha" : String), "beta", "gamma"] 2 (" ")
    [("beta" : String), "alpha"] (by decide) (by decide)
    ⟨rfl, ⟨[("alpha" : String), "beta"],
      List.Perm.swap ("beta") ("alpha") [],
      List.sublist_append_left [("alpha" : String), "beta"] ["gamma"]⟩⟩

end Pw
